import Mathlib

/-!
Verification of the knapsack repository.

Shallow embedding of the knapsack application: the Streamlit front end
(`src/knapsack/app.py`: duplicate check, widget-constrained inputs, JSON
hand-off) and the optimization back end (`src/knapsack/main.py`: JSON
parsing, construction of the 0/1 knapsack model, result records).

The actual optimization in `main.py` is delegated to an external GLPK
process through Pyomo; that solving step is not among the sources of the
repository, so the solver is modelled from the specification (§4.2): exact
bottom-up dynamic programming over `dp[i][w]` with backward reconstruction
of one optimal subset.
-/

namespace Knapsack

/-- An item of the problem instance: a non-negative value and a positive
weight (spec §3); fields are natural numbers, the engine domain. -/
structure Item where
  value : Nat
  weight : Nat
deriving Repr, DecidableEq

/-- The item at 1-based position `i` (positions `1..n` as in `main.py`,
where `weights = {i + 1 : item["weight"]}`). Out-of-range positions give a
zero item. -/
def itemAt (items : List Item) (i : Nat) : Item :=
  items.getD (i - 1) ⟨0, 0⟩

/-- Modelled from the spec: the solving step of `main.py` is delegated to
an external GLPK process, absent from the sources; §4.2 specifies it as
bottom-up dynamic programming. `dp items i w` is the maximum achievable
value using only the first `i` items with total weight `≤ w`:
`dp 0 w = 0`; `dp i w = dp (i-1) w` if `weight i > w`, otherwise
`max (dp (i-1) w) (dp (i-1) (w - weight i) + value i)`. -/
def dp (items : List Item) : Nat → Nat → Nat
  | 0, _ => 0
  | i + 1, w =>
    if (itemAt items (i + 1)).weight > w then
      dp items i w
    else
      max (dp items i w)
        (dp items i (w - (itemAt items (i + 1)).weight) + (itemAt items (i + 1)).value)

/-- Modelled from the spec (§4.2): backward reconstruction of one optimal
subset. Walk `i` from `n` down to `1`; item `i` is selected exactly when
`dp i w ≠ dp (i-1) w`, in which case `w` decreases by `weight i`. The
result lists the selected 1-based positions in decreasing order. -/
def reconstruct (items : List Item) : Nat → Nat → List Nat
  | 0, _ => []
  | i + 1, w =>
    if dp items (i + 1) w ≠ dp items i w then
      (i + 1) :: reconstruct items i (w - (itemAt items (i + 1)).weight)
    else
      reconstruct items i w

/-- A solution (spec §3): selected original 1-based positions, total value
and total weight of the selection. -/
structure Solution where
  selected : List Nat
  total_value : Nat
  total_weight : Nat
deriving Repr, DecidableEq

/-- Total value of a list of selected positions. -/
def listValue (items : List Item) (sel : List Nat) : Nat :=
  (sel.map (fun i => (itemAt items i).value)).sum

/-- Total weight of a list of selected positions. -/
def listWeight (items : List Item) (sel : List Nat) : Nat :=
  (sel.map (fun i => (itemAt items i).weight)).sum

/-- Modelled from the spec: the solver `solve(instance) -> Solution`
(§4.2). The selected positions are those found by the backward
reconstruction, listed in ascending position order as in the
`chosen_items` comprehension of `main.py`. -/
def solve (capacity : Nat) (items : List Item) : Solution :=
  let sel := (reconstruct items items.length capacity).reverse
  { selected := sel
    total_value := listValue items sel
    total_weight := listWeight items sel }

lemma dp_le_succ (items : List Item) (i w : Nat) :
    dp items i w ≤ dp items (i + 1) w := by
  rw [dp]
  split
  · exact le_refl _
  · exact le_max_left _ _

lemma mem_reconstruct_bounds (items : List Item) :
    ∀ i w j, j ∈ reconstruct items i w → 1 ≤ j ∧ j ≤ i := by
  intro i
  induction i with
  | zero => intro w j hj; simp [reconstruct] at hj
  | succ i ih =>
    intro w j hj
    rw [reconstruct] at hj
    split at hj
    · rcases List.mem_cons.mp hj with h | h
      · omega
      · have := ih _ _ h; omega
    · have := ih _ _ hj; omega

lemma reconstruct_sorted (items : List Item) :
    ∀ i w, (reconstruct items i w).Pairwise (· > ·) := by
  intro i
  induction i with
  | zero => intro w; simp [reconstruct]
  | succ i ih =>
    intro w
    rw [reconstruct]
    split
    · refine List.pairwise_cons.mpr ⟨?_, ih _⟩
      intro j hj
      have := mem_reconstruct_bounds items i _ j hj
      omega
    · exact ih _

/-- Selecting item `i + 1` during the backward walk forces its weight to
fit: otherwise the recurrence gives `dp (i+1) w = dp i w`. -/
lemma weight_le_of_dp_ne (items : List Item) (i w : Nat)
    (h : dp items (i + 1) w ≠ dp items i w) :
    (itemAt items (i + 1)).weight ≤ w := by
  by_contra hgt
  apply h
  rw [dp, if_pos (by omega)]

lemma dp_eq_of_ne (items : List Item) (i w : Nat)
    (h : dp items (i + 1) w ≠ dp items i w) :
    dp items (i + 1) w =
      dp items i (w - (itemAt items (i + 1)).weight) + (itemAt items (i + 1)).value := by
  have hle := weight_le_of_dp_ne items i w h
  rw [dp, if_neg (by omega)] at h ⊢
  rcases max_choice (dp items i w)
    (dp items i (w - (itemAt items (i + 1)).weight) + (itemAt items (i + 1)).value) with
    hmax | hmax
  · exact absurd hmax h
  · exact hmax

lemma reconstruct_weight (items : List Item) :
    ∀ i w, listWeight items (reconstruct items i w) ≤ w := by
  intro i
  induction i with
  | zero => intro w; simp [reconstruct, listWeight]
  | succ i ih =>
    intro w
    rw [reconstruct]
    split
    · rename_i hne
      have hle := weight_le_of_dp_ne items i w hne
      have hrec := ih (w - (itemAt items (i + 1)).weight)
      simp only [listWeight, List.map_cons, List.sum_cons] at hrec ⊢
      omega
    · exact ih w

lemma reconstruct_value (items : List Item) :
    ∀ i w, listValue items (reconstruct items i w) = dp items i w := by
  intro i
  induction i with
  | zero => intro w; simp [reconstruct, listValue, dp]
  | succ i ih =>
    intro w
    rw [reconstruct]
    split
    · rename_i hne
      have heq := dp_eq_of_ne items i w hne
      simp only [listValue, List.map_cons, List.sum_cons] at ih ⊢
      rw [ih, heq, Nat.add_comm]
    · rename_i hne
      push_neg at hne
      rw [ih, hne]

lemma listValue_reverse (items : List Item) (l : List Nat) :
    listValue items l.reverse = listValue items l := by
  simp [listValue, List.map_reverse, List.sum_reverse]

lemma listWeight_reverse (items : List Item) (l : List Nat) :
    listWeight items l.reverse = listWeight items l := by
  simp [listWeight, List.map_reverse, List.sum_reverse]

lemma solve_total_value (capacity : Nat) (items : List Item) :
    (solve capacity items).total_value = dp items items.length capacity := by
  simp [solve, listValue_reverse, reconstruct_value]

lemma solve_total_weight_le (capacity : Nat) (items : List Item) :
    (solve capacity items).total_weight ≤ capacity := by
  simp only [solve]
  rw [listWeight_reverse]
  exact reconstruct_weight items items.length capacity

/-- Total value of an index set of selected positions. -/
def setValue (items : List Item) (S : Finset Nat) : Nat :=
  S.sum (fun j => (itemAt items j).value)

/-- Total weight of an index set of selected positions. -/
def setWeight (items : List Item) (S : Finset Nat) : Nat :=
  S.sum (fun j => (itemAt items j).weight)

/-- `dp items i w` dominates every subset of the first `i` positions whose
total weight fits in `w`. -/
lemma dp_ge_subset (items : List Item) :
    ∀ i w (S : Finset Nat), (∀ j ∈ S, 1 ≤ j ∧ j ≤ i) →
      setWeight items S ≤ w → setValue items S ≤ dp items i w := by
  intro i
  induction i with
  | zero =>
    intro w S hub _
    have hS : S = ∅ := by
      apply Finset.eq_empty_iff_forall_not_mem.mpr
      intro j hj
      have := hub j hj
      omega
    simp [hS, setValue, dp]
  | succ i ih =>
    intro w S hub hw
    by_cases hmem : (i + 1) ∈ S
    · set wt := (itemAt items (i + 1)).weight with hwt
      set vl := (itemAt items (i + 1)).value with hvl
      have hsplitW : setWeight items (S.erase (i + 1)) + wt = setWeight items S :=
        Finset.sum_erase_add S _ hmem
      have hsplitV : setValue items (S.erase (i + 1)) + vl = setValue items S :=
        Finset.sum_erase_add S _ hmem
      have hwtle : wt ≤ w := by omega
      have hub' : ∀ j ∈ S.erase (i + 1), 1 ≤ j ∧ j ≤ i := by
        intro j hj
        have hne := Finset.ne_of_mem_erase hj
        have := hub j (Finset.mem_of_mem_erase hj)
        omega
      have hw' : setWeight items (S.erase (i + 1)) ≤ w - wt := by omega
      have hval := ih (w - wt) (S.erase (i + 1)) hub' hw'
      rw [dp, if_neg (by omega)]
      have : setValue items S ≤ dp items i (w - wt) + vl := by omega
      exact le_trans this (le_max_right _ _)
    · have hub' : ∀ j ∈ S, 1 ≤ j ∧ j ≤ i := by
        intro j hj
        have := hub j hj
        have hne : j ≠ i + 1 := fun h => hmem (h ▸ hj)
        omega
      exact le_trans (ih w S hub' hw) (dp_le_succ items i w)

/-- C1 — Optimality: for every valid problem instance (capacity ≥ 1, all
weights ≥ 1, values non-negative by the `Nat` domain, no duplicate
(value, weight) pairs), no subset of positions whose total weight is at
most the capacity has a total value strictly greater than the total value
of the solution the solver returns. -/
theorem solve_optimal (capacity : Nat) (items : List Item)
    (hcap : 1 ≤ capacity)
    (hwts : ∀ it ∈ items, 1 ≤ it.weight)
    (hdup : (items.map (fun it => (it.value, it.weight))).Nodup)
    (S : Finset Nat) (hub : ∀ j ∈ S, 1 ≤ j ∧ j ≤ items.length)
    (hw : setWeight items S ≤ capacity) :
    setValue items S ≤ (solve capacity items).total_value := by
  rw [solve_total_value]
  exact dp_ge_subset items items.length capacity S hub hw

/-- Witness for C1: on the classic instance, the subset {1} (weight 5 ≤ 10)
has value 60 ≤ 220, the total value reported by the solver. -/
theorem solve_optimal_witness :
    setValue [⟨60, 5⟩, ⟨100, 4⟩, ⟨120, 6⟩] {1} ≤
      (solve 10 [⟨60, 5⟩, ⟨100, 4⟩, ⟨120, 6⟩]).total_value :=
  solve_optimal 10 [⟨60, 5⟩, ⟨100, 4⟩, ⟨120, 6⟩] (by decide) (by decide) (by decide)
    {1} (by decide) (by decide)

/-- C2 — Feasibility: for every instance, the solution returned by the
solver satisfies the weight constraint of `capacity_constraint_rule`: the
sum of the weights of the selected items is at most the capacity. -/
theorem solve_feasible (capacity : Nat) (items : List Item) :
    (solve capacity items).total_weight ≤ capacity :=
  solve_total_weight_le capacity items

/-- C3 — Determinism: two calls of `solve` on the same (capacity, items)
input produce the identical selected indices, and the selection is exactly
the one found by the specified backward reconstruction; on a tie (items
(value 5, weight 5) and (value 5, weight 4) with capacity 5, both optima
worth 5), the backward walk skips the higher-indexed item whose removal
does not change the achieved value and returns {1}. -/
theorem solve_deterministic :
    (∀ capacity items, solve capacity items = solve capacity items) ∧
    (∀ capacity items, (solve capacity items).selected =
      (reconstruct items items.length capacity).reverse) ∧
    (solve 5 [⟨5, 5⟩, ⟨5, 4⟩]).selected = [1] := by
  refine ⟨fun _ _ => rfl, fun _ _ => rfl, by decide⟩

/-- C7 — Classic instance: capacity 10 with items
(60, 5), (100, 4), (120, 6) selects exactly items 2 and 3, with total
value 220 and total weight 10. -/
theorem solve_classic_instance :
    solve 10 [⟨60, 5⟩, ⟨100, 4⟩, ⟨120, 6⟩] =
      { selected := [2, 3], total_value := 220, total_weight := 10 } := by
  decide

lemma dp_eq_zero_of_all_heavy (capacity : Nat) (items : List Item)
    (h : ∀ it ∈ items, capacity < it.weight) :
    ∀ i, dp items i capacity = 0 := by
  intro i
  induction i with
  | zero => rw [dp]
  | succ i ih =>
    rw [dp]
    by_cases hlen : i < items.length
    · have hmem : itemAt items (i + 1) ∈ items := by
        have h1 : itemAt items (i + 1) = items.getD i ⟨0, 0⟩ := by
          simp [itemAt]
        rw [h1, List.getD_eq_getElem _ _ hlen]
        exact List.getElem_mem hlen
      rw [if_pos (h _ hmem), ih]
    · have hzero : itemAt items (i + 1) = ⟨0, 0⟩ := by
        simp only [itemAt, Nat.add_sub_cancel]
        rw [List.getD_eq_getElem?_getD,
          List.getElem?_eq_none (show items.length ≤ i by omega), Option.getD_none]
      rw [hzero]
      simp [ih]

lemma reconstruct_nil_of_all_heavy (capacity : Nat) (items : List Item)
    (h : ∀ it ∈ items, capacity < it.weight) :
    ∀ i, reconstruct items i capacity = [] := by
  intro i
  induction i with
  | zero => rw [reconstruct]
  | succ i ih =>
    rw [reconstruct]
    rw [if_neg]
    · exact ih
    · rw [dp_eq_zero_of_all_heavy capacity items h (i + 1),
        dp_eq_zero_of_all_heavy capacity items h i]
      simp

/-- C6 — Infeasible-all edge case: when the weight of every item strictly
exceeds the capacity, the solver returns the empty selection with
`total_value = 0` and `total_weight = 0`, a valid non-error outcome. -/
theorem solve_infeasible_all (capacity : Nat) (items : List Item)
    (h : ∀ it ∈ items, capacity < it.weight) :
    solve capacity items =
      { selected := [], total_value := 0, total_weight := 0 } := by
  simp [solve, reconstruct_nil_of_all_heavy capacity items h, listValue, listWeight]

/-- Witness for C6: capacity 5 with items (value 3, weight 10) and
(value 5, weight 8) yields the empty selection, total value 0. -/
theorem solve_infeasible_all_witness :
    solve 5 [⟨3, 10⟩, ⟨5, 8⟩] =
      { selected := [], total_value := 0, total_weight := 0 } :=
  solve_infeasible_all 5 [⟨3, 10⟩, ⟨5, 8⟩] (by decide)

/-- A result record of the `chosen_objects` list in `main.py`: the 1-based item
position together with the weight and value of that item. -/
structure ResultRecord where
  item_position : Nat
  weight : Nat
  value : Nat
deriving Repr, DecidableEq

/-- The result records built in `main.py`:
`[{"item": i, "weight": weights[i], "value": values[i]} for i in chosen_items]`. -/
def report (items : List Item) (sel : List Nat) : List ResultRecord :=
  sel.map (fun i => ⟨i, (itemAt items i).weight, (itemAt items i).value⟩)

lemma report_positions (items : List Item) (sel : List Nat) :
    (report items sel).map (fun r => r.item_position) = sel := by
  induction sel with
  | nil => rfl
  | cons a l ih =>
    simp only [report, List.map_cons, List.map_map] at ih ⊢
    rw [List.cons.injEq]
    exact ⟨rfl, ih⟩

/-- C8 — Reporter ordering: the result set has exactly one record per
selected index in the same order, the record positions are strictly
ascending (matching original input order), and the weight and value of
each record are those of the original item at that position. -/
theorem report_ordering (capacity : Nat) (items : List Item) :
    ((report items (solve capacity items).selected).map
        (fun r => r.item_position) = (solve capacity items).selected) ∧
    ((report items (solve capacity items).selected).map
        (fun r => r.item_position)).Pairwise (· < ·) ∧
    (∀ r ∈ report items (solve capacity items).selected,
      1 ≤ r.item_position ∧ r.item_position ≤ items.length ∧
      r.weight = (itemAt items r.item_position).weight ∧
      r.value = (itemAt items r.item_position).value) := by
  have hmap : (report items (solve capacity items).selected).map
      (fun r => r.item_position) = (solve capacity items).selected :=
    report_positions items _
  refine ⟨hmap, ?_, ?_⟩
  · rw [hmap]
    simp only [solve]
    rw [List.pairwise_reverse]
    exact reconstruct_sorted items items.length capacity
  · intro r hr
    simp only [report, List.mem_map] at hr
    obtain ⟨i, hi, hr⟩ := hr
    simp only [solve, List.mem_reverse] at hi
    have hb := mem_reconstruct_bounds items items.length capacity i hi
    subst hr
    exact ⟨hb.1, hb.2, rfl, rfl⟩

/-- Error kinds of the validation taxonomy (spec §7). -/
inductive VKind where
  | DuplicateItem
  | InvalidCapacity
  | InvalidWeight
  | InvalidValue
deriving Repr, DecidableEq

/-- Outcome of pressing the optimization button in `app.py`: either the
duplicate check fails with a 1-based offending index, or the optimization
is run on the raw (capacity, items) input. -/
inductive AppOutcome where
  | validationError (kind : VKind) (offending_index : Nat)
  | ran (capacity : Int) (items : List (Int × Int))
deriving Repr, DecidableEq

/-- The duplicate scan of `app.py` (`st.button` block): walk the
(value, weight) pairs with a set of already-seen pairs; on the first pair
already seen, report its 1-based index (`idx + 1`) and stop. -/
def findDupAux (seen : List (Int × Int)) : List (Int × Int) → Nat → Option Nat
  | [], _ => none
  | p :: rest, idx =>
    if p ∈ seen then some (idx + 1) else findDupAux (p :: seen) rest (idx + 1)

/-- The duplicate check of `app.py` over the full item list. -/
def findDup (pairs : List (Int × Int)) : Option Nat :=
  findDupAux [] pairs 0

/-- The `st.button` block of `app.py`: run the duplicate check; on a hit,
stop with the error (no optimization is run), otherwise hand the raw
input to the optimization script. -/
def runButton (capacity : Int) (items : List (Int × Int)) : AppOutcome :=
  match findDup items with
  | some k => AppOutcome.validationError VKind.DuplicateItem k
  | none => AppOutcome.ran capacity items

/-- Position `m` (0-based) holds an item that repeats an earlier one. -/
def offendsAt (l : List (Int × Int)) (m : Nat) : Prop :=
  ∃ p, l[m]? = some p ∧ p ∈ l.take m

lemma findDupAux_correct :
    ∀ (rest pre seen : List (Int × Int)),
      (∀ p, p ∈ seen ↔ p ∈ pre) →
      (∀ m, m < pre.length → ¬ offendsAt (pre ++ rest) m) →
      (findDupAux seen rest pre.length = none ∧
        ∀ m, ¬ offendsAt (pre ++ rest) m) ∨
      (∃ k, findDupAux seen rest pre.length = some k ∧ 1 ≤ k ∧
        offendsAt (pre ++ rest) (k - 1) ∧
        ∀ m, m < k - 1 → ¬ offendsAt (pre ++ rest) m) := by
  intro rest
  induction rest with
  | nil =>
    intro pre seen _ hpre
    left
    refine ⟨rfl, fun m hoff => ?_⟩
    rcases Nat.lt_or_ge m pre.length with hm | hm
    · exact hpre m hm hoff
    · rcases hoff with ⟨p, hp, _⟩
      rw [List.getElem?_eq_none (by simp; omega)] at hp
      exact Option.noConfusion hp
  | cons p rest' ih =>
    intro pre seen hseen hpre
    rw [findDupAux]
    by_cases hin : p ∈ seen
    · rw [if_pos hin]
      right
      refine ⟨pre.length + 1, rfl, by omega, ?_, ?_⟩
      · simp only [Nat.add_sub_cancel]
        refine ⟨p, ?_, ?_⟩
        · rw [List.getElem?_append_right (le_refl pre.length), Nat.sub_self]
          simp
        · rw [List.take_append_of_le_length (le_refl pre.length), List.take_length]
          exact (hseen p).mp hin
      · intro m hm
        exact hpre m (by omega)
    · rw [if_neg hin]
      have hcons : pre ++ p :: rest' = (pre ++ [p]) ++ rest' := by
        simp
      have hseen' : ∀ q, q ∈ p :: seen ↔ q ∈ pre ++ [p] := by
        intro q
        simp only [List.mem_cons, List.mem_append, List.mem_singleton, hseen]
        tauto
      have hpre' : ∀ m, m < (pre ++ [p]).length → ¬ offendsAt ((pre ++ [p]) ++ rest') m := by
        intro m hm
        rw [← hcons]
        simp only [List.length_append, List.length_singleton] at hm
        rcases Nat.lt_or_ge m pre.length with hmlt | hmge
        · exact hpre m hmlt
        · have hmeq : m = pre.length := by omega
          subst hmeq
          intro hoff
          rcases hoff with ⟨q, hq, hmem⟩
          rw [List.getElem?_append_right (le_refl pre.length), Nat.sub_self] at hq
          have hqp : q = p := by
            simp only [List.getElem?_cons_zero, Option.some_inj] at hq
            exact hq.symm
          subst hqp
          rw [List.take_append_of_le_length (le_refl pre.length), List.take_length] at hmem
          exact hin ((hseen q).mpr hmem)
      have hlen : (pre ++ [p]).length = pre.length + 1 := by simp
      have := ih (pre ++ [p]) (p :: seen) hseen' hpre'
      rw [hlen, ← hcons] at this
      exact this

/-- A list with no position repeating an earlier one has no duplicates. -/
lemma nodup_of_no_offense (l : List (Int × Int)) (h : ∀ m, ¬ offendsAt l m) :
    l.Nodup := by
  rw [List.nodup_iff_getElem?_ne_getElem?]
  intro i j hij hj hne
  apply h j
  have hi : i < l.length := lt_trans hij hj
  rw [List.getElem?_eq_getElem hi, List.getElem?_eq_getElem hj, Option.some_inj] at hne
  refine ⟨l.get ⟨j, hj⟩, List.getElem?_eq_getElem hj, ?_⟩
  rw [List.mem_take_iff_getElem]
  exact ⟨i, by omega, hne⟩

/-- C4 — Duplicate rejection: on any item list that contains a repeated
(value, weight) pair, the button handler of `app.py` stops with a
DuplicateItem error whose 1-based index is the earliest position, in entry
order, of an item repeating an earlier one (so no optimization is run);
on `[(10, 5), (10, 5)]` the reported index is 2. -/
theorem duplicate_rejection (capacity : Int) (items : List (Int × Int))
    (hdup : ¬ items.Nodup) :
    (∃ k, runButton capacity items = AppOutcome.validationError VKind.DuplicateItem k ∧
      1 ≤ k ∧ offendsAt items (k - 1) ∧ ∀ m, m < k - 1 → ¬ offendsAt items m) ∧
    runButton 1 [(10, 5), (10, 5)] = AppOutcome.validationError VKind.DuplicateItem 2 := by
  constructor
  · have hcorr := findDupAux_correct items [] [] (by simp) (by simp)
    simp only [List.nil_append, List.length_nil] at hcorr
    rcases hcorr with ⟨_, hnone⟩ | ⟨k, hk, hk1, hoff, hmin⟩
    · exact absurd (nodup_of_no_offense items hnone) hdup
    · refine ⟨k, ?_, hk1, hoff, hmin⟩
      simp [runButton, findDup, hk]
  · decide

/-- Witness for C4: the theorem applied to the list
`[(10, 5), (10, 5)]`, which fails the duplicate check at index 2. -/
theorem duplicate_rejection_witness :
    (∃ k, runButton 1 [((10 : Int), (5 : Int)), (10, 5)] =
        AppOutcome.validationError VKind.DuplicateItem k ∧
      1 ≤ k ∧ offendsAt [((10 : Int), (5 : Int)), (10, 5)] (k - 1) ∧
      ∀ m, m < k - 1 → ¬ offendsAt [((10 : Int), (5 : Int)), (10, 5)] m) ∧
    runButton 1 [(10, 5), (10, 5)] = AppOutcome.validationError VKind.DuplicateItem 2 :=
  duplicate_rejection 1 [(10, 5), (10, 5)] (by decide)

/-- A structured validation error (spec §7): a kind and, where it
applies, the 1-based offending item index. -/
structure ValidationError where
  kind : VKind
  offending_index : Option Nat
deriving Repr, DecidableEq

/-- Modelled from the spec: the engine-level range checks of §4.1 are not
in the sources (the front end enforces them through `st.number_input`
widget bounds `min_value=1` on weights, `min_value=0` on values, and no
validation exists in `main.py`). First item, in entry order, violating
`weight ≥ 1` or `value ≥ 0`, with its 1-based index and error kind. -/
def firstBadItem : List (Int × Int) → Nat → Option (Nat × VKind)
  | [], _ => none
  | (v, w) :: rest, idx =>
    if w < 1 then some (idx + 1, VKind.InvalidWeight)
    else if v < 0 then some (idx + 1, VKind.InvalidValue)
    else firstBadItem rest (idx + 1)

/-- Modelled from the spec: `validate(capacity, items)` (§4.1). Rejects
`capacity < 1`, then any item with `weight < 1` or `value < 0`, then
duplicate (value, weight) pairs; on success returns the input unchanged
and in order. -/
def validate (capacity : Int) (items : List (Int × Int)) :
    Except ValidationError (Int × List (Int × Int)) :=
  if capacity < 1 then Except.error ⟨VKind.InvalidCapacity, none⟩
  else
    match firstBadItem items 0 with
    | some kv => Except.error ⟨kv.2, some kv.1⟩
    | none =>
      match findDup items with
      | some k => Except.error ⟨VKind.DuplicateItem, some k⟩
      | none => Except.ok (capacity, items)

/-- Conversion of a validated (value, weight) pair to an engine item. -/
def toItem (p : Int × Int) : Item :=
  ⟨p.1.toNat, p.2.toNat⟩

/-- Modelled from the spec: `validate_and_solve` (§6) — validation runs
first and an error is returned before any optimization work begins. -/
def validate_and_solve (capacity : Int) (items : List (Int × Int)) :
    Except ValidationError Solution :=
  match validate capacity items with
  | Except.error e => Except.error e
  | Except.ok r => Except.ok (solve r.1.toNat (r.2.map toItem))

lemma firstBadItem_some :
    ∀ (items : List (Int × Int)), (∃ p ∈ items, p.2 < 1 ∨ p.1 < 0) →
      ∀ idx, ∃ r, firstBadItem items idx = some r := by
  intro items
  induction items with
  | nil => intro h; simp at h
  | cons q rest ih =>
    intro h idx
    obtain ⟨v, w⟩ := q
    by_cases hw : w < 1
    · exact ⟨(idx + 1, VKind.InvalidWeight), by rw [firstBadItem, if_pos hw]⟩
    · by_cases hv : v < 0
      · exact ⟨(idx + 1, VKind.InvalidValue), by rw [firstBadItem, if_neg hw, if_pos hv]⟩
      · have h' : ∃ p ∈ rest, p.2 < 1 ∨ p.1 < 0 := by
          rcases h with ⟨p, hp, hbad⟩
          rcases List.mem_cons.mp hp with heq | hmem
          · subst heq; simp at hbad; omega
          · exact ⟨p, hmem, hbad⟩
        obtain ⟨r, hr⟩ := ih h' (idx + 1)
        exact ⟨r, by rw [firstBadItem, if_neg hw, if_neg hv, hr]⟩

/-- C5 — Validation fail-fast: an input with `capacity < 1`, or with some
item of weight < 1 or value < 0, is rejected with a structured
ValidationError before any optimization runs; no default or empty result
is returned as success. -/
theorem validation_fail_fast (capacity : Int) (items : List (Int × Int))
    (h : capacity < 1 ∨ ∃ p ∈ items, p.2 < 1 ∨ p.1 < 0) :
    ∃ e, validate_and_solve capacity items = Except.error e := by
  by_cases hc : capacity < 1
  · exact ⟨⟨VKind.InvalidCapacity, none⟩, by
      simp [validate_and_solve, validate, if_pos hc]⟩
  · rcases h with hc' | hbad
    · exact absurd hc' hc
    · obtain ⟨r, hr⟩ := firstBadItem_some items hbad 0
      exact ⟨⟨r.2, some r.1⟩, by
        simp [validate_and_solve, validate, if_neg hc, hr]⟩

/-- Witness for C5: capacity 0 with one item of weight 0 and value -1 is
rejected with a validation error. -/
theorem validation_fail_fast_witness :
    ∃ e, validate_and_solve 0 [((-1 : Int), (0 : Int))] = Except.error e :=
  validation_fail_fast 0 [(-1, 0)] (Or.inl (by decide))

/-- The fragment of JSON exchanged through `input.json`: numbers, arrays
and objects with string keys. -/
inductive Json where
  | num (n : Int)
  | arr (elems : List Json)
  | obj (fields : List (String × Json))

/-- First field with the given key, as Python dict access `data[key]`. -/
def lookupField (k : String) : List (String × Json) → Option Json
  | [] => none
  | f :: rest => if f.1 = k then some f.2 else lookupField k rest

/-- Dictionary access on a JSON value. -/
def getField : Json → String → Option Json
  | Json.obj fields, k => lookupField k fields
  | _, _ => none

def asNum : Json → Option Int
  | Json.num n => some n
  | _ => none

def asArr : Json → Option (List Json)
  | Json.arr elems => some elems
  | _ => none

/-- The serialization of one item written by `app.py`:
`{"value": value, "weight": weight}`. -/
def encodeItem (p : Int × Int) : Json :=
  Json.obj [(("value"), Json.num p.1), (("weight"), Json.num p.2)]

/-- The `input_data` object written by `app.py`:
`{"num_items": ..., "capacity": ..., "items": [...]}` in that field
order. -/
def encodeRequest (n : Int) (capacity : Int) (items : List (Int × Int)) : Json :=
  Json.obj [(("num_items"), Json.num n), (("capacity"), Json.num capacity),
    (("items"), Json.arr (items.map encodeItem))]

/-- Reading one item back in `main.py`: `item["value"]`, `item["weight"]`. -/
def decodeItem (j : Json) : Option (Int × Int) :=
  match getField j ("value") with
  | none => none
  | some jv =>
    match asNum jv with
    | none => none
    | some v =>
      match getField j ("weight") with
      | none => none
      | some jw =>
        match asNum jw with
        | none => none
        | some w => some (v, w)

def decodeItems : List Json → Option (List (Int × Int))
  | [] => some []
  | j :: rest =>
    match decodeItem j, decodeItems rest with
    | some p, some ps => some (p :: ps)
    | _, _ => none

/-- The read side of `main.py`: `data["capacity"]` and `data["items"]`,
each item contributing its value and weight in original order. -/
def readRequest (j : Json) : Option (Int × List (Int × Int)) :=
  match getField j ("capacity") with
  | none => none
  | some jc =>
    match asNum jc with
    | none => none
    | some c =>
      match getField j ("items") with
      | none => none
      | some ji =>
        match asArr ji with
        | none => none
        | some elems =>
          match decodeItems elems with
          | none => none
          | some items => some (c, items)

lemma decodeItem_encodeItem (p : Int × Int) : decodeItem (encodeItem p) = some p := rfl

lemma decodeItems_encode (items : List (Int × Int)) :
    decodeItems (items.map encodeItem) = some items := by
  induction items with
  | nil => rfl
  | cons p rest ih =>
    rw [List.map_cons, decodeItems, decodeItem_encodeItem, ih]

lemma readRequest_encode (n c : Int) (items : List (Int × Int)) :
    readRequest (encodeRequest n c items) = some (c, items) := by
  have h1 : readRequest (encodeRequest n c items) =
      match decodeItems (items.map encodeItem) with
      | none => none
      | some its => some (c, its) := rfl
  rw [h1, decodeItems_encode]

/-- C9 — Persisted-format round-trip: writing any (capacity, items)
request to the intermediate JSON structure produced by `app.py` and
reading it back as `main.py` does losslessly recovers the capacity and
the items with their value and weight fields in the original order. -/
theorem persisted_roundtrip (n c : Int) (items : List (Int × Int)) :
    readRequest (encodeRequest n c items) = some (c, items) :=
  readRequest_encode n c items

/-- The Pyomo model data assembled in `main.py`: the raw capacity and the
1-indexed weight and value dictionaries
`weights = {i + 1 : item["weight"]}`, `values = {i + 1 : item["value"]}`. -/
structure KnapsackModel where
  capacity : Int
  weights : List (Nat × Int)
  values : List (Nat × Int)
deriving Repr, DecidableEq

/-- The 1-indexed dictionary comprehension of `main.py`:
`{i + 1 : f(item) for i, item in enumerate(items)}`. -/
def dictFrom (f : Int × Int → Int) : Nat → List (Int × Int) → List (Nat × Int)
  | _, [] => []
  | idx, p :: rest => (idx + 1, f p) :: dictFrom f (idx + 1) rest

/-- Model construction in `main.py`: capacity, weights and values are
taken from the parsed input with no check or transformation. -/
def buildModel (capacity : Int) (items : List (Int × Int)) : KnapsackModel :=
  { capacity := capacity
    weights := dictFrom Prod.snd 0 items
    values := dictFrom Prod.fst 0 items }

/-- The solve step of `main.py` up to the hand-off to the external solver:
parse the JSON file, then build the optimization model directly. -/
def mainProcess (j : Json) : Option KnapsackModel :=
  match readRequest j with
  | none => none
  | some r => some (buildModel r.1 r.2)

lemma dictFrom_map_snd (f : Int × Int → Int) :
    ∀ idx (items : List (Int × Int)),
      (dictFrom f idx items).map Prod.snd = items.map f := by
  intro idx items
  induction items generalizing idx with
  | nil => rfl
  | cons p rest ih =>
    rw [dictFrom, List.map_cons, List.map_cons, ih]

/-- C10 — Solver performs no validation: every parsed input, including
one with duplicate pairs, zero weights or negative values, reaches the
optimization model unchanged; `main.py` applies no check on capacity,
weights, values or duplicates before building the model. -/
theorem main_no_validation :
    (∀ n c items, mainProcess (encodeRequest n c items) = some (buildModel c items)) ∧
    (∀ c items, (buildModel c items).capacity = c ∧
      (buildModel c items).weights.map Prod.snd = items.map Prod.snd ∧
      (buildModel c items).values.map Prod.snd = items.map Prod.fst) ∧
    mainProcess (encodeRequest 2 5 [((-1 : Int), (0 : Int)), (-1, 0)]) =
      some (buildModel 5 [(-1, 0), (-1, 0)]) := by
  have h1 : ∀ n c items, mainProcess (encodeRequest n c items) = some (buildModel c items) := by
    intro n c items
    rw [mainProcess, readRequest_encode]
  refine ⟨h1, ?_, h1 2 5 [(-1, 0), (-1, 0)]⟩
  intro c items
  exact ⟨rfl, dictFrom_map_snd Prod.snd 0 items, dictFrom_map_snd Prod.fst 0 items⟩

end Knapsack
